import Mathlib

/-!
# Watch-cache exporter: one iteration of the reconciliation loop

A shallow embedding of the `for` loop body of `main` in `main.go`
(lines 110-228).  The Kubernetes client, the informer's indexer and the
Prometheus registry are collaborators of the program: the listing result and
the indexer are inputs of an iteration, and what the iteration does to the
counters and to the clock is recorded, in program order, as a list of
effects.  `glog` output is not recorded.

Two error paths of the source cannot be reached from the inputs of this
model and have no counterpart in it.  `GetMetricWith` fails only for label
names other than the registered ones or for a label value that is not valid
UTF-8; the source passes the registered names, and the strings here are
valid, so every `GetMetricWith` is followed by its `counter.Add(1)`.  The
type assertions `.(*v1.Endpoints)` of lines 123 and 145 are applied to
objects of the Endpoints informer, which are records of that type.
-/

namespace WatchcacheExporter

/-! ## Data model -/

/-- The fields of `v1.Endpoints` that `main` reads: `GetNamespace()`,
`GetName()`, `GetResourceVersion()` and `Subsets`.  The subsets payload is
only ever handed to the two formatters, so it is kept as an uninterpreted
string. -/
structure Endpoints where
  Namespace : String
  Name : String
  ResourceVersion : String
  Subsets : String
deriving DecidableEq, Repr

/-- The label map handed to `GetMetricWith`; the three fields are the label
names `"namespace"`, `"name"` and `"endpoint"` of the variable `labels`. -/
structure Labels where
  Namespace : String
  Name : String
  Endpoint : String
deriving DecidableEq, Repr

/-- The three results of `GetIndexer().GetByKey(key)` that `main`
distinguishes: `(obj, true, nil)`, `(_, false, nil)` and `(_, _, err)` with
`err != nil`. -/
inductive Lookup where
  | found (obj : Endpoints)
  | absent
  | failed (err : String)
deriving DecidableEq, Repr

/-- The informer's indexer as `main` uses it: `List()` and `GetByKey(key)`. -/
structure Indexer where
  list : List Endpoints
  getByKey : String → Lookup

/-- The two renderings used for the `"endpoint"` label: `cmp.Diff(a, b)` on
two subsets payloads and `fmt.Sprintf("%v", a)` on one. -/
structure Formatters where
  cmpDiff : String → String → String
  sprintf : String → String

/-- What one loop iteration does to the outside world. -/
inductive Effect where
  /-- The call `kubernetesCounterTests.Inc()`. -/
  | testsInc
  /-- The call `kubernetesCounterVecDisparity.GetMetricWith(l)` followed by `Add(1)`. -/
  | disparityAdd (l : Labels)
  /-- The call `kubernetesCounterVecMissing.GetMetricWith(l)` followed by `Add(1)`. -/
  | missingAdd (l : Labels)
  /-- The call `time.Sleep(d)`, with `d` in nanoseconds. -/
  | sleep (d : Nat)
deriving DecidableEq, Repr

/-- Nanoseconds in `time.Minute`. -/
def Minute : Nat := 60 * 1000000000

/-- The constant `SLEEP_TIME = 5 * time.Minute`. -/
def SLEEP_TIME : Nat := 5 * Minute

/-- The lookup key `ns + "/" + name` of lines 138 and 172. -/
def cacheKey (ns name : String) : String := ns ++ "/" ++ name

/-! ## The three classification loops -/

/-- Lines 134-161: the loop over the direct items in the equal-count branch.
A record whose lookup is not `(obj, true, nil)` is logged, the loop sleeps
`SLEEP_TIME` (line 141) and continues with the next record. -/
def disparityLoop (F : Formatters) (ix : Indexer) : List Endpoints → List Effect
  | [] => []
  | endpointDirect :: rest =>
    let name := endpointDirect.Name
    let ns := endpointDirect.Namespace
    match ix.getByKey (cacheKey ns name) with
    | .found endpointCache =>
      if endpointDirect.ResourceVersion != endpointCache.ResourceVersion then
        Effect.disparityAdd
            ⟨ns, name, F.cmpDiff endpointDirect.Subsets endpointCache.Subsets⟩
          :: disparityLoop F ix rest
      else
        disparityLoop F ix rest
    | _ => Effect.sleep SLEEP_TIME :: disparityLoop F ix rest

/-- Lines 168-189: the loop over the direct items when the direct list is
longer than the cached one. -/
def missingInCacheLoop (F : Formatters) (ix : Indexer) : List Endpoints → List Effect
  | [] => []
  | endpointDirect :: rest =>
    let name := endpointDirect.Name
    let ns := endpointDirect.Namespace
    match ix.getByKey (cacheKey ns name) with
    | .found _ => missingInCacheLoop F ix rest
    | _ =>
      Effect.missingAdd ⟨ns, name, F.sprintf endpointDirect.Subsets⟩
        :: missingInCacheLoop F ix rest

/-- Lines 200-207: the scan of the direct items that sets `found` and
breaks at the first record with the given namespace and name. -/
def foundInDirect (ns name : String) : List Endpoints → Bool
  | [] => false
  | endpointDirect :: rest =>
    if endpointDirect.Namespace == ns && endpointDirect.Name == name then true
    else foundInDirect ns name rest

/-- Lines 196-224: the loop over the cached items when the cached list is
longer than the direct one. -/
def missingInEtcdLoop (F : Formatters) (direct : List Endpoints) :
    List Endpoints → List Effect
  | [] => []
  | endpointCached :: rest =>
    let name := endpointCached.Name
    let ns := endpointCached.Namespace
    if !foundInDirect ns name direct then
      Effect.missingAdd ⟨ns, name, F.sprintf endpointCached.Subsets⟩
        :: missingInEtcdLoop F direct rest
    else
      missingInEtcdLoop F direct rest

/-! ## One iteration of the main loop -/

/-- Lines 111-227: one iteration of the `for` loop.  `listing` is the result
of `clientset.CoreV1().Endpoints("").List(...)`, `ix` the indexer as it
stands during the iteration.  The three classification blocks are three
separate `if` statements, as in the source. -/
def tick (F : Formatters) (listing : Except String (List Endpoints)) (ix : Indexer) :
    List Effect :=
  Effect.testsInc ::
    match listing with
    | .error _ => [Effect.sleep SLEEP_TIME]
    | .ok endpointsDirectList =>
      let endpointsCachedList := ix.list
      if endpointsDirectList.length == 0 || endpointsCachedList.length == 0 then
        [Effect.sleep SLEEP_TIME]
      else
        (if endpointsDirectList.length == endpointsCachedList.length then
            disparityLoop F ix endpointsDirectList else [])
        ++ (if endpointsDirectList.length > endpointsCachedList.length then
            missingInCacheLoop F ix endpointsDirectList else [])
        ++ (if endpointsDirectList.length < endpointsCachedList.length then
            missingInEtcdLoop F endpointsDirectList endpointsCachedList else [])
        ++ [Effect.sleep SLEEP_TIME]

/-! ## Reading the effects -/

/-- The disparity-counter increments of a run whose labels carry the given
namespace and name. -/
def disparityFor (ns name : String) (t : List Effect) : List Effect :=
  t.filter fun e =>
    match e with
    | .disparityAdd l => l.Namespace == ns && l.Name == name
    | _ => false

/-- The missing-counter increments of a run whose labels carry the given
namespace and name. -/
def missingFor (ns name : String) (t : List Effect) : List Effect :=
  t.filter fun e =>
    match e with
    | .missingAdd l => l.Namespace == ns && l.Name == name
    | _ => false

/-- Number of disparity-counter increments of a run, over all label sets. -/
def disparityTotal (t : List Effect) : Nat :=
  t.countP fun e => match e with | .disparityAdd _ => true | _ => false

/-- Number of missing-counter increments of a run, over all label sets. -/
def missingTotal (t : List Effect) : Nat :=
  t.countP fun e => match e with | .missingAdd _ => true | _ => false

/-- Number of increments of `watchcache_endpoint_tests_total` in a run. -/
def testsTotal (t : List Effect) : Nat :=
  t.countP fun e => match e with | .testsInc => true | _ => false

/-- Number of calls of `time.Sleep(SLEEP_TIME)` in a run. -/
def sleepTotal (t : List Effect) : Nat :=
  t.countP fun e => match e with | .sleep d => d == SLEEP_TIME | _ => false

/-! ## Snapshots and the cache -/

/-- The identity key `(namespace, name)` of a record. -/
def identityKey (e : Endpoints) : String × String := (e.Namespace, e.Name)

/-- Identity keys are unique within a snapshot. -/
def UniqueKeys (l : List Endpoints) : Prop := (l.map identityKey).Nodup

instance (l : List Endpoints) : Decidable (UniqueKeys l) := by
  unfold UniqueKeys; infer_instance

/-- The cache's lookup by key agrees with its enumeration: looking up the
key of `(ns, name)` yields a record exactly when that record is enumerated
and carries this namespace and name. -/
def Indexer.Consistent (ix : Indexer) : Prop :=
  ∀ (ns name : String) (c : Endpoints),
    ix.getByKey (cacheKey ns name) = .found c ↔
      (c ∈ ix.list ∧ c.Namespace = ns ∧ c.Name = name)

/-- A store keyed by `cacheKey`, the way the informer keys namespaced
objects: `List()` enumerates the items, `GetByKey` returns the first item
stored under the key and never fails. -/
def storeOf (items : List Endpoints) : Indexer where
  list := items
  getByKey := fun key =>
    match items.find? (fun c => cacheKey c.Namespace c.Name == key) with
    | some c => .found c
    | none => .absent

/-- Whether a lookup result passes the test `ok && err == nil` of lines 139
and 173. -/
def Lookup.isFound : Lookup → Bool
  | .found _ => true
  | _ => false

/-! ## Concrete records for the examples -/

/-- Record `ns1/a` at version `v1`. -/
def epA : Endpoints := ⟨"ns1", "a", "v1", "10.0.0.1:80"⟩

/-- Record `ns1/b` at version `v1`. -/
def epB : Endpoints := ⟨"ns1", "b", "v1", "10.0.0.2:80"⟩

/-- Record `ns1/b` at version `v2`. -/
def epB2 : Endpoints := ⟨"ns1", "b", "v2", "10.0.0.3:80"⟩

/-- Record `ns1/c` at version `v1`. -/
def epC : Endpoints := ⟨"ns1", "c", "v1", "10.0.0.4:80"⟩

/-- Record `ns2/x` at version `v1`. -/
def epX : Endpoints := ⟨"ns2", "x", "v1", "10.0.0.5:80"⟩

/-- Formatters used on the concrete examples. -/
def exampleFormatters : Formatters where
  cmpDiff := fun a b => "-" ++ a ++ " +" ++ b
  sprintf := fun a => a

/-! ## The branch taken by an iteration -/

theorem tick_error (F : Formatters) (e : String) (ix : Indexer) :
    tick F (.error e) ix = [.testsInc, .sleep SLEEP_TIME] := rfl

theorem tick_empty (F : Formatters) (direct : List Endpoints) (ix : Indexer)
    (h : direct = [] ∨ ix.list = []) :
    tick F (.ok direct) ix = [.testsInc, .sleep SLEEP_TIME] := by
  rcases h with h | h <;> simp [tick, h]

theorem tick_equal (F : Formatters) (direct : List Endpoints) (ix : Indexer)
    (hd : direct ≠ []) (hlen : direct.length = ix.list.length) :
    tick F (.ok direct) ix
      = .testsInc :: (disparityLoop F ix direct ++ [.sleep SLEEP_TIME]) := by
  have hc : ix.list ≠ [] := by
    intro h; rw [h] at hlen; exact hd (List.length_eq_zero.mp hlen)
  simp [tick, hd, hc, hlen]

theorem tick_more (F : Formatters) (direct : List Endpoints) (ix : Indexer)
    (hc : ix.list ≠ []) (hlen : ix.list.length < direct.length) :
    tick F (.ok direct) ix
      = .testsInc :: (missingInCacheLoop F ix direct ++ [.sleep SLEEP_TIME]) := by
  have hd : direct ≠ [] := by
    intro h; rw [h] at hlen; simp at hlen
  have h1 : direct.length ≠ ix.list.length := by omega
  have h2 : ¬ direct.length < ix.list.length := by omega
  simp [tick, hd, hc, hlen, h1, h2]

theorem tick_less (F : Formatters) (direct : List Endpoints) (ix : Indexer)
    (hd : direct ≠ []) (hlen : direct.length < ix.list.length) :
    tick F (.ok direct) ix
      = .testsInc :: (missingInEtcdLoop F direct ix.list ++ [.sleep SLEEP_TIME]) := by
  have hc : ix.list ≠ [] := by
    intro h; rw [h] at hlen; simp at hlen
  have h1 : direct.length ≠ ix.list.length := by omega
  have h2 : ¬ ix.list.length < direct.length := by omega
  simp [tick, hd, hc, hlen, h1, h2]

/-! ## Filtering the effects of the loops -/

theorem disparityFor_cons_testsInc (ns name : String) (t : List Effect) :
    disparityFor ns name (.testsInc :: t) = disparityFor ns name t := by
  simp [disparityFor]

theorem disparityFor_append_sleep (ns name : String) (t : List Effect) (d : Nat) :
    disparityFor ns name (t ++ [.sleep d]) = disparityFor ns name t := by
  simp [disparityFor]

theorem missingFor_cons_testsInc (ns name : String) (t : List Effect) :
    missingFor ns name (.testsInc :: t) = missingFor ns name t := by
  simp [missingFor]

theorem missingFor_append_sleep (ns name : String) (t : List Effect) (d : Nat) :
    missingFor ns name (t ++ [.sleep d]) = missingFor ns name t := by
  simp [missingFor]

/-- A name that no record of the list carries gets no disparity increment. -/
theorem disparityFor_disparityLoop_of_not_mem (F : Formatters) (ix : Indexer)
    (ns name : String) (l : List Endpoints)
    (h : ∀ e ∈ l, identityKey e ≠ (ns, name)) :
    disparityFor ns name (disparityLoop F ix l) = [] := by
  induction l with
  | nil => rfl
  | cons e rest ih =>
    have he : ¬ (e.Namespace = ns ∧ e.Name = name) := by
      intro ⟨h1, h2⟩
      exact h e (List.mem_cons_self _ _) (by simp [identityKey, h1, h2])
    have ih2 := ih (fun x hx => h x (List.mem_cons_of_mem _ hx))
    simp only [disparityFor] at ih2 ⊢
    simp only [disparityLoop]
    split
    · split <;> simp [List.filter_cons, he, ih2]
    · simp [List.filter_cons, ih2]

/-- A name whose lookup does not yield a record gets no disparity
increment. -/
theorem disparityFor_disparityLoop_of_not_found (F : Formatters) (ix : Indexer)
    (ns name : String) (l : List Endpoints)
    (h : ∀ c, ix.getByKey (cacheKey ns name) ≠ .found c) :
    disparityFor ns name (disparityLoop F ix l) = [] := by
  induction l with
  | nil => rfl
  | cons e rest ih =>
    simp only [disparityFor] at ih ⊢
    simp only [disparityLoop]
    split
    · next c hc =>
      have he : ¬ (e.Namespace = ns ∧ e.Name = name) := by
        intro ⟨h1, h2⟩
        rw [h1, h2] at hc
        exact h c hc
      split <;> simp [List.filter_cons, he, ih]
    · simp [List.filter_cons, ih]

/-- In a list with unique keys, a record whose lookup yields `c` gets one
disparity increment when the resource versions differ and none otherwise. -/
theorem disparityFor_disparityLoop_of_found (F : Formatters) (ix : Indexer)
    (l : List Endpoints) (hu : UniqueKeys l) (d c : Endpoints) (hd : d ∈ l)
    (hc : ix.getByKey (cacheKey d.Namespace d.Name) = .found c) :
    disparityFor d.Namespace d.Name (disparityLoop F ix l)
      = if d.ResourceVersion != c.ResourceVersion then
          [.disparityAdd ⟨d.Namespace, d.Name, F.cmpDiff d.Subsets c.Subsets⟩]
        else [] := by
  induction l with
  | nil => simp at hd
  | cons e rest ih =>
    have hu2 : identityKey e ∉ rest.map identityKey ∧ UniqueKeys rest := by
      simpa [UniqueKeys] using hu
    rcases List.mem_cons.mp hd with rfl | hmem
    · have hrest := disparityFor_disparityLoop_of_not_mem F ix d.Namespace d.Name rest
        (fun x hx hk => hu2.1 (List.mem_map.mpr ⟨x, hx, by simpa [identityKey] using hk⟩))
      simp only [disparityFor] at hrest ⊢
      simp only [disparityLoop, hc]
      split <;> simp [List.filter_cons, hrest]
    · have he : ¬ (e.Namespace = d.Namespace ∧ e.Name = d.Name) := by
        intro ⟨h1, h2⟩
        exact hu2.1 (List.mem_map.mpr ⟨d, hmem, by simp [identityKey, h1, h2]⟩)
      have ih2 := ih hu2.2 hmem
      simp only [disparityFor] at ih2 ⊢
      simp only [disparityLoop]
      split
      · split <;> simp [List.filter_cons, he, ih2]
      · simp [List.filter_cons, ih2]

theorem isFound_iff (r : Lookup) : r.isFound = true ↔ ∃ c, r = .found c := by
  cases r <;> simp [Lookup.isFound]

theorem isFound_eq_false_iff (r : Lookup) : r.isFound = false ↔ ∀ c, r ≠ .found c := by
  cases r <;> simp [Lookup.isFound]

/-- A name that no record of the list carries gets no missing increment in
the Missing-in-Cache loop. -/
theorem missingFor_missingInCacheLoop_of_not_mem (F : Formatters) (ix : Indexer)
    (ns name : String) (l : List Endpoints)
    (h : ∀ e ∈ l, identityKey e ≠ (ns, name)) :
    missingFor ns name (missingInCacheLoop F ix l) = [] := by
  induction l with
  | nil => rfl
  | cons e rest ih =>
    have he : ¬ (e.Namespace = ns ∧ e.Name = name) := by
      intro ⟨h1, h2⟩
      exact h e (List.mem_cons_self _ _) (by simp [identityKey, h1, h2])
    have ih2 := ih (fun x hx => h x (List.mem_cons_of_mem _ hx))
    simp only [missingFor] at ih2 ⊢
    simp only [missingInCacheLoop]
    split <;> simp [List.filter_cons, he, ih2]

/-- A name whose lookup yields a record gets no missing increment in the
Missing-in-Cache loop. -/
theorem missingFor_missingInCacheLoop_of_found (F : Formatters) (ix : Indexer)
    (ns name : String) (l : List Endpoints) (c : Endpoints)
    (h : ix.getByKey (cacheKey ns name) = .found c) :
    missingFor ns name (missingInCacheLoop F ix l) = [] := by
  induction l with
  | nil => rfl
  | cons e rest ih =>
    simp only [missingFor] at ih ⊢
    simp only [missingInCacheLoop]
    split
    · simp [ih]
    · next hnot =>
      have he : ¬ (e.Namespace = ns ∧ e.Name = name) := by
        intro ⟨h1, h2⟩
        rw [h1, h2] at hnot
        exact hnot c h
      simp [List.filter_cons, he, ih]

/-- In a list with unique keys, a record whose lookup yields no record gets
exactly one missing increment in the Missing-in-Cache loop. -/
theorem missingFor_missingInCacheLoop_of_not_found (F : Formatters) (ix : Indexer)
    (l : List Endpoints) (hu : UniqueKeys l) (d : Endpoints) (hd : d ∈ l)
    (h : ∀ c, ix.getByKey (cacheKey d.Namespace d.Name) ≠ .found c) :
    missingFor d.Namespace d.Name (missingInCacheLoop F ix l)
      = [.missingAdd ⟨d.Namespace, d.Name, F.sprintf d.Subsets⟩] := by
  induction l with
  | nil => simp at hd
  | cons e rest ih =>
    have hu2 : identityKey e ∉ rest.map identityKey ∧ UniqueKeys rest := by
      simpa [UniqueKeys] using hu
    rcases List.mem_cons.mp hd with rfl | hmem
    · have hrest := missingFor_missingInCacheLoop_of_not_mem F ix d.Namespace d.Name rest
        (fun x hx hk => hu2.1 (List.mem_map.mpr ⟨x, hx, by simpa [identityKey] using hk⟩))
      simp only [missingFor] at hrest ⊢
      simp only [missingInCacheLoop]
      simp [List.filter_cons, hrest]
    · have he : ¬ (e.Namespace = d.Namespace ∧ e.Name = d.Name) := by
        intro ⟨h1, h2⟩
        exact hu2.1 (List.mem_map.mpr ⟨d, hmem, by simp [identityKey, h1, h2]⟩)
      have ih2 := ih hu2.2 hmem
      simp only [missingFor] at ih2 ⊢
      simp only [missingInCacheLoop]
      split <;> simp [List.filter_cons, he, ih2]

/-- The scan finds a record exactly when the direct list holds one with the
given namespace and name. -/
theorem foundInDirect_iff (ns name : String) (l : List Endpoints) :
    foundInDirect ns name l = true ↔ ∃ d ∈ l, d.Namespace = ns ∧ d.Name = name := by
  induction l with
  | nil => simp [foundInDirect]
  | cons e rest ih =>
    simp only [foundInDirect, List.mem_cons]
    split
    · next h =>
      simp only [Bool.and_eq_true, beq_iff_eq] at h
      simp only [true_iff]
      exact ⟨e, Or.inl rfl, h⟩
    · next h =>
      simp only [Bool.and_eq_true, beq_iff_eq] at h
      rw [ih]
      constructor
      · rintro ⟨d, hd, hk⟩; exact ⟨d, Or.inr hd, hk⟩
      · rintro ⟨d, hd | hd, hk⟩
        · subst hd; exact absurd hk h
        · exact ⟨d, hd, hk⟩

/-- A name that no record of the cached list carries gets no missing
increment in the Missing-in-Authority loop. -/
theorem missingFor_missingInEtcdLoop_of_not_mem (F : Formatters)
    (direct : List Endpoints) (ns name : String) (l : List Endpoints)
    (h : ∀ e ∈ l, identityKey e ≠ (ns, name)) :
    missingFor ns name (missingInEtcdLoop F direct l) = [] := by
  induction l with
  | nil => rfl
  | cons e rest ih =>
    have he : ¬ (e.Namespace = ns ∧ e.Name = name) := by
      intro ⟨h1, h2⟩
      exact h e (List.mem_cons_self _ _) (by simp [identityKey, h1, h2])
    have ih2 := ih (fun x hx => h x (List.mem_cons_of_mem _ hx))
    simp only [missingFor] at ih2 ⊢
    simp only [missingInEtcdLoop]
    split <;> simp [List.filter_cons, he, ih2]

/-- A name that the scan finds in the direct list gets no missing increment
in the Missing-in-Authority loop. -/
theorem missingFor_missingInEtcdLoop_of_matched (F : Formatters)
    (direct : List Endpoints) (ns name : String) (l : List Endpoints)
    (h : foundInDirect ns name direct = true) :
    missingFor ns name (missingInEtcdLoop F direct l) = [] := by
  induction l with
  | nil => rfl
  | cons e rest ih =>
    simp only [missingFor] at ih ⊢
    simp only [missingInEtcdLoop]
    split
    · next hnot =>
      have he : ¬ (e.Namespace = ns ∧ e.Name = name) := by
        intro ⟨h1, h2⟩
        rw [h1, h2, h] at hnot
        simp at hnot
      simp [List.filter_cons, he, ih]
    · simp [ih]

/-- In a cached list with unique keys, a record that the scan does not find
in the direct list gets exactly one missing increment. -/
theorem missingFor_missingInEtcdLoop_of_unmatched (F : Formatters)
    (direct : List Endpoints) (l : List Endpoints) (hu : UniqueKeys l)
    (c : Endpoints) (hc : c ∈ l)
    (h : foundInDirect c.Namespace c.Name direct = false) :
    missingFor c.Namespace c.Name (missingInEtcdLoop F direct l)
      = [.missingAdd ⟨c.Namespace, c.Name, F.sprintf c.Subsets⟩] := by
  induction l with
  | nil => simp at hc
  | cons e rest ih =>
    have hu2 : identityKey e ∉ rest.map identityKey ∧ UniqueKeys rest := by
      simpa [UniqueKeys] using hu
    rcases List.mem_cons.mp hc with rfl | hmem
    · have hrest := missingFor_missingInEtcdLoop_of_not_mem F direct c.Namespace c.Name rest
        (fun x hx hk => hu2.1 (List.mem_map.mpr ⟨x, hx, by simpa [identityKey] using hk⟩))
      simp only [missingFor] at hrest ⊢
      simp only [missingInEtcdLoop, h]
      simp [List.filter_cons, hrest]
    · have he : ¬ (e.Namespace = c.Namespace ∧ e.Name = c.Name) := by
        intro ⟨h1, h2⟩
        exact hu2.1 (List.mem_map.mpr ⟨c, hmem, by simp [identityKey, h1, h2]⟩)
      have ih2 := ih hu2.2 hmem
      simp only [missingFor] at ih2 ⊢
      simp only [missingInEtcdLoop]
      split <;> simp [List.filter_cons, he, ih2]

/-! ## Totals per loop -/

theorem missingTotal_disparityLoop (F : Formatters) (ix : Indexer) (l : List Endpoints) :
    missingTotal (disparityLoop F ix l) = 0 := by
  induction l with
  | nil => rfl
  | cons e rest ih =>
    simp only [missingTotal] at ih ⊢
    simp only [disparityLoop]
    split
    · split <;> simp [List.countP_cons, ih]
    · simp [List.countP_cons, ih]

theorem disparityTotal_missingInCacheLoop (F : Formatters) (ix : Indexer)
    (l : List Endpoints) : disparityTotal (missingInCacheLoop F ix l) = 0 := by
  induction l with
  | nil => rfl
  | cons e rest ih =>
    simp only [disparityTotal] at ih ⊢
    simp only [missingInCacheLoop]
    split <;> simp [List.countP_cons, ih]

theorem disparityTotal_missingInEtcdLoop (F : Formatters) (direct l : List Endpoints) :
    disparityTotal (missingInEtcdLoop F direct l) = 0 := by
  induction l with
  | nil => rfl
  | cons e rest ih =>
    simp only [disparityTotal] at ih ⊢
    simp only [missingInEtcdLoop]
    split <;> simp [List.countP_cons, ih]

theorem testsTotal_disparityLoop (F : Formatters) (ix : Indexer) (l : List Endpoints) :
    testsTotal (disparityLoop F ix l) = 0 := by
  induction l with
  | nil => rfl
  | cons e rest ih =>
    simp only [testsTotal] at ih ⊢
    simp only [disparityLoop]
    split
    · split <;> simp [List.countP_cons, ih]
    · simp [List.countP_cons, ih]

theorem testsTotal_missingInCacheLoop (F : Formatters) (ix : Indexer)
    (l : List Endpoints) : testsTotal (missingInCacheLoop F ix l) = 0 := by
  induction l with
  | nil => rfl
  | cons e rest ih =>
    simp only [testsTotal] at ih ⊢
    simp only [missingInCacheLoop]
    split <;> simp [List.countP_cons, ih]

theorem testsTotal_missingInEtcdLoop (F : Formatters) (direct l : List Endpoints) :
    testsTotal (missingInEtcdLoop F direct l) = 0 := by
  induction l with
  | nil => rfl
  | cons e rest ih =>
    simp only [testsTotal] at ih ⊢
    simp only [missingInEtcdLoop]
    split <;> simp [List.countP_cons, ih]

/-- The Missing-in-Cache loop increments the missing counter once per direct
record whose lookup yields no record. -/
theorem missingTotal_missingInCacheLoop (F : Formatters) (ix : Indexer)
    (l : List Endpoints) :
    missingTotal (missingInCacheLoop F ix l)
      = l.countP fun d => !(ix.getByKey (cacheKey d.Namespace d.Name)).isFound := by
  induction l with
  | nil => rfl
  | cons e rest ih =>
    simp only [missingTotal] at ih ⊢
    simp only [missingInCacheLoop]
    split
    · next c hc => simp [List.countP_cons, ih, hc, Lookup.isFound]
    · next hnot =>
      have : (ix.getByKey (cacheKey e.Namespace e.Name)).isFound = false :=
        (isFound_eq_false_iff _).mpr hnot
      simp [List.countP_cons, ih, this]

/-- The Missing-in-Authority loop increments the missing counter once per
cached record that the scan does not find in the direct list. -/
theorem missingTotal_missingInEtcdLoop (F : Formatters) (direct l : List Endpoints) :
    missingTotal (missingInEtcdLoop F direct l)
      = l.countP fun c => !foundInDirect c.Namespace c.Name direct := by
  induction l with
  | nil => rfl
  | cons e rest ih =>
    simp only [missingTotal] at ih ⊢
    simp only [missingInEtcdLoop]
    split
    · next h => simp [List.countP_cons, ih, h]
    · next h => simp [List.countP_cons, ih, h]

/-- Records with pairwise different keys, each of whose keys occurs among
the keys of a second list, are at most as many as the second list is
long. -/
theorem countP_le_length_of_keys (l m : List Endpoints) (p : Endpoints → Bool)
    (hu : UniqueKeys l)
    (h : ∀ x ∈ l, p x = true → identityKey x ∈ m.map identityKey) :
    l.countP p ≤ m.length := by
  have hnd : ((l.filter p).map identityKey).Nodup :=
    hu.sublist ((List.filter_sublist l).map identityKey)
  have hsub : (l.filter p).map identityKey ⊆ m.map identityKey := by
    intro k hk
    obtain ⟨x, hx, rfl⟩ := List.mem_map.mp hk
    have hx2 := List.mem_filter.mp hx
    exact h x hx2.1 hx2.2
  have hle := (List.subperm_of_subset hnd hsub).length_le
  simpa [List.countP_eq_length_filter] using hle

/-! ## The lookup key and the identity key -/

/-- A list that is split at a slash in two ways is split the same way, when
the first part of one split has no slash and either the first part of the
other split or the second part of the first has none. -/
theorem split_at_slash_unique (l₁ r₁ l₂ r₂ : List Char)
    (h : l₁ ++ '/' :: r₁ = l₂ ++ '/' :: r₂) (h₂ : '/' ∉ l₂)
    (h₁ : '/' ∉ l₁ ∨ '/' ∉ r₂) : l₁ = l₂ ∧ r₁ = r₂ := by
  induction l₁ generalizing l₂ with
  | nil =>
    cases l₂ with
    | nil => simpa using h
    | cons b l₂ =>
      simp only [List.nil_append, List.cons_append, List.cons.injEq] at h
      exact absurd (by simp [← h.1]) h₂
  | cons a l₁ ih =>
    cases l₂ with
    | nil =>
      simp only [List.nil_append, List.cons_append, List.cons.injEq] at h
      rcases h₁ with h₁ | h₁
      · exact absurd (by simp [h.1]) h₁
      · exact absurd (by simp [← h.2]) h₁
    | cons b l₂ =>
      simp only [List.cons_append, List.cons.injEq] at h
      have hb : '/' ∉ l₂ := fun hm => h₂ (List.mem_cons_of_mem _ hm)
      have ha : '/' ∉ l₁ ∨ '/' ∉ r₂ :=
        h₁.imp (fun hn hm => hn (List.mem_cons_of_mem _ hm)) id
      obtain ⟨e₁, e₂⟩ := ih l₂ h.2 hb ha
      exact ⟨by rw [h.1, e₁], e₂⟩

theorem cacheKey_toList (ns name : String) :
    (cacheKey ns name).toList = ns.toList ++ '/' :: name.toList := by
  simp [cacheKey, String.toList]

/-- Two keys with slash-free namespaces are equal only for the same
namespace and name. -/
theorem cacheKey_inj_of_namespaces (ns₁ name₁ ns₂ name₂ : String)
    (h₁ : '/' ∉ ns₁.toList) (h₂ : '/' ∉ ns₂.toList)
    (h : cacheKey ns₁ name₁ = cacheKey ns₂ name₂) : ns₁ = ns₂ ∧ name₁ = name₂ := by
  have hl := congrArg String.toList h
  rw [cacheKey_toList, cacheKey_toList] at hl
  obtain ⟨e₁, e₂⟩ := split_at_slash_unique _ _ _ _ hl h₂ (Or.inl h₁)
  exact ⟨String.ext e₁, String.ext e₂⟩

/-- A key equal to the key of a slash-free namespace and a slash-free name
is built from that namespace and name. -/
theorem cacheKey_inj_of_record (ns₁ name₁ ns₂ name₂ : String)
    (h₂ : '/' ∉ ns₂.toList) (h₂n : '/' ∉ name₂.toList)
    (h : cacheKey ns₁ name₁ = cacheKey ns₂ name₂) : ns₁ = ns₂ ∧ name₁ = name₂ := by
  have hl := congrArg String.toList h
  rw [cacheKey_toList, cacheKey_toList] at hl
  obtain ⟨e₁, e₂⟩ := split_at_slash_unique _ _ _ _ hl h₂ (Or.inr h₂n)
  exact ⟨String.ext e₁, String.ext e₂⟩

/-- A store of records with unique keys and no slash in any namespace or
name answers lookups in agreement with its enumeration. -/
theorem storeOf_consistent (items : List Endpoints) (hu : UniqueKeys items)
    (hs : ∀ c ∈ items, '/' ∉ c.Namespace.toList ∧ '/' ∉ c.Name.toList) :
    (storeOf items).Consistent := by
  intro ns name c
  simp only [storeOf]
  constructor
  · intro h
    split at h
    · next c' hf =>
      have hc : c' = c := by simpa using h
      subst hc
      have hm := List.mem_of_find?_eq_some hf
      have hk := List.find?_some hf
      simp only [beq_iff_eq] at hk
      obtain ⟨e₁, e₂⟩ := cacheKey_inj_of_record ns name _ _ (hs _ hm).1 (hs _ hm).2 hk.symm
      exact ⟨hm, e₁.symm, e₂.symm⟩
    · simp at h
  · rintro ⟨hm, rfl, rfl⟩
    split
    · next c' hf =>
      have hm' := List.mem_of_find?_eq_some hf
      have hk := List.find?_some hf
      simp only [beq_iff_eq] at hk
      obtain ⟨e₁, e₂⟩ :=
        cacheKey_inj_of_record _ _ _ _ (hs _ hm).1 (hs _ hm).2 hk
      have : c' = c := List.inj_on_of_nodup_map hu hm' hm (by simp [identityKey, e₁, e₂])
      rw [this]
    · next hf =>
      have := List.find?_eq_none.mp hf c hm
      simp at this

/-! ## The equal-count branch does not depend on unqueried records -/

theorem disparityLoop_congr (F : Formatters) (ix₁ ix₂ : Indexer) (l : List Endpoints)
    (h : ∀ d ∈ l, ∀ c, ix₁.getByKey (cacheKey d.Namespace d.Name) = .found c ↔
      ix₂.getByKey (cacheKey d.Namespace d.Name) = .found c) :
    disparityLoop F ix₁ l = disparityLoop F ix₂ l := by
  induction l with
  | nil => rfl
  | cons e rest ih =>
    have ih2 := ih (fun d hd => h d (List.mem_cons_of_mem _ hd))
    have he := h e (List.mem_cons_self _ _)
    simp only [disparityLoop]
    cases h₁ : ix₁.getByKey (cacheKey e.Namespace e.Name) with
    | found c =>
      rw [(he c).mp h₁, ih2]
    | absent =>
      cases h₂ : ix₂.getByKey (cacheKey e.Namespace e.Name) with
      | found c => rw [(he c).mpr h₂] at h₁; cases h₁
      | absent => rw [ih2]
      | failed _ => rw [ih2]
    | failed _ =>
      cases h₂ : ix₂.getByKey (cacheKey e.Namespace e.Name) with
      | found c => rw [(he c).mpr h₂] at h₁; cases h₁
      | absent => rw [ih2]
      | failed _ => rw [ih2]

/-- The loop of the equal-count branch sleeps once per direct record whose
lookup yields no record. -/
theorem sleepTotal_disparityLoop (F : Formatters) (ix : Indexer) (l : List Endpoints) :
    sleepTotal (disparityLoop F ix l)
      = l.countP fun d => !(ix.getByKey (cacheKey d.Namespace d.Name)).isFound := by
  induction l with
  | nil => rfl
  | cons e rest ih =>
    simp only [sleepTotal] at ih ⊢
    simp only [disparityLoop]
    split
    · next c hc => split <;> simp [List.countP_cons, ih, hc, Lookup.isFound]
    · next hnot =>
      have : (ix.getByKey (cacheKey e.Namespace e.Name)).isFound = false :=
        (isFound_eq_false_iff _).mpr hnot
      simp [List.countP_cons, ih, this]

/-! ## The claims -/

/-- C1 (Disparity Check): in an iteration whose two snapshots have the same
number of records, with unique keys in the direct snapshot and a cache whose
lookup agrees with its enumeration, a key present in both snapshots gets
exactly one disparity increment, labelled with its namespace and name, when
the two resource versions differ, and none when they are equal.  Nothing is
assumed about the other direct records, which may be absent from the cache;
uniqueness within the cached snapshot is not needed, and both snapshots are
non-empty because they hold the key. -/
theorem disparity_check_reports_version_mismatch (F : Formatters)
    (direct : List Endpoints) (ix : Indexer)
    (hlen : direct.length = ix.list.length) (hud : UniqueKeys direct)
    (hcons : ix.Consistent) (d c : Endpoints) (hd : d ∈ direct) (hc : c ∈ ix.list)
    (hns : d.Namespace = c.Namespace) (hname : d.Name = c.Name) :
    (d.ResourceVersion ≠ c.ResourceVersion →
        disparityFor d.Namespace d.Name (tick F (.ok direct) ix)
          = [.disparityAdd ⟨d.Namespace, d.Name, F.cmpDiff d.Subsets c.Subsets⟩]) ∧
      (d.ResourceVersion = c.ResourceVersion →
        disparityFor d.Namespace d.Name (tick F (.ok direct) ix) = []) := by
  have hne : direct ≠ [] := List.ne_nil_of_mem hd
  have hlook : ix.getByKey (cacheKey d.Namespace d.Name) = .found c :=
    (hcons d.Namespace d.Name c).mpr ⟨hc, hns.symm, hname.symm⟩
  have hloop := disparityFor_disparityLoop_of_found F ix direct hud d c hd hlook
  rw [tick_equal F direct ix hne hlen, disparityFor_cons_testsInc,
    disparityFor_append_sleep, hloop]
  constructor
  · intro hv; simp [hv]
  · intro hv; simp [hv]

/-- C1, on three direct records of which `ns1/b` has another version in the
cache and `ns1/c` is absent from it. -/
theorem disparity_check_reports_version_mismatch_witness :
    disparityFor "ns1" "b"
        (tick exampleFormatters (.ok [epA, epB, epC]) (storeOf [epA, epB2, epX]))
      = [.disparityAdd ⟨"ns1", "b", "-10.0.0.2:80 +10.0.0.3:80"⟩] :=
  (disparity_check_reports_version_mismatch exampleFormatters [epA, epB, epC]
    (storeOf [epA, epB2, epX]) (by decide) (by decide)
    (storeOf_consistent _ (by decide) (by decide)) epB epB2 (by decide) (by decide)
    rfl rfl).1 (by decide)

/-- C2 (Missing-in-Cache Check): in an iteration whose direct snapshot has
strictly more records than the non-empty cached one, with unique keys in the
direct snapshot and a cache whose lookup agrees with its enumeration, a
direct record whose key is absent from the cached snapshot gets exactly one
missing increment labelled with its namespace and name, a direct record
whose key is present gets none, and the disparity counter is not
incremented at all. -/
theorem missing_in_cache_check (F : Formatters) (direct : List Endpoints)
    (ix : Indexer) (hc : ix.list ≠ []) (hlen : ix.list.length < direct.length)
    (hud : UniqueKeys direct) (hcons : ix.Consistent)
    (d : Endpoints) (hd : d ∈ direct) :
    ((¬ ∃ c ∈ ix.list, c.Namespace = d.Namespace ∧ c.Name = d.Name) →
        missingFor d.Namespace d.Name (tick F (.ok direct) ix)
          = [.missingAdd ⟨d.Namespace, d.Name, F.sprintf d.Subsets⟩]) ∧
      ((∃ c ∈ ix.list, c.Namespace = d.Namespace ∧ c.Name = d.Name) →
        missingFor d.Namespace d.Name (tick F (.ok direct) ix) = []) ∧
      disparityTotal (tick F (.ok direct) ix) = 0 := by
  rw [tick_more F direct ix hc hlen, missingFor_cons_testsInc, missingFor_append_sleep]
  refine ⟨?_, ?_, ?_⟩
  · intro habs
    apply missingFor_missingInCacheLoop_of_not_found F ix direct hud d hd
    intro c hf
    have := (hcons d.Namespace d.Name c).mp hf
    exact habs ⟨c, this.1, this.2.1, this.2.2⟩
  · rintro ⟨c, hm, h₁, h₂⟩
    exact missingFor_missingInCacheLoop_of_found F ix d.Namespace d.Name direct c
      ((hcons d.Namespace d.Name c).mpr ⟨hm, h₁, h₂⟩)
  · have := disparityTotal_missingInCacheLoop F ix direct
    simp only [disparityTotal] at this ⊢
    simp [List.countP_cons, List.countP_append, this]

/-- C2, on scenario B: `ns1/a` and `ns1/b` listed, only `ns1/a` cached. -/
theorem missing_in_cache_check_witness :
    missingFor "ns1" "b" (tick exampleFormatters (.ok [epA, epB]) (storeOf [epA]))
        = [.missingAdd ⟨"ns1", "b", "10.0.0.2:80"⟩] ∧
      missingFor "ns1" "a" (tick exampleFormatters (.ok [epA, epB]) (storeOf [epA])) = [] ∧
      disparityTotal (tick exampleFormatters (.ok [epA, epB]) (storeOf [epA])) = 0 :=
  ⟨(missing_in_cache_check exampleFormatters [epA, epB] (storeOf [epA]) (by decide)
      (by decide) (by decide) (storeOf_consistent _ (by decide) (by decide)) epB
      (by decide)).1 (by decide),
    by decide, by decide⟩

/-- C3 (Missing-in-Authority Check): in an iteration whose cached snapshot
has strictly more records than the non-empty direct one, with unique keys in
the cached snapshot, a cached record for which no direct record has the same
namespace and name gets exactly one missing increment labelled with its
namespace and name, a cached record that has such a match gets none, and the
disparity counter is not incremented at all. -/
theorem missing_in_authority_check (F : Formatters) (direct : List Endpoints)
    (ix : Indexer) (hd : direct ≠ []) (hlen : direct.length < ix.list.length)
    (huc : UniqueKeys ix.list) (c : Endpoints) (hc : c ∈ ix.list) :
    ((¬ ∃ d ∈ direct, d.Namespace = c.Namespace ∧ d.Name = c.Name) →
        missingFor c.Namespace c.Name (tick F (.ok direct) ix)
          = [.missingAdd ⟨c.Namespace, c.Name, F.sprintf c.Subsets⟩]) ∧
      ((∃ d ∈ direct, d.Namespace = c.Namespace ∧ d.Name = c.Name) →
        missingFor c.Namespace c.Name (tick F (.ok direct) ix) = []) ∧
      disparityTotal (tick F (.ok direct) ix) = 0 := by
  rw [tick_less F direct ix hd hlen, missingFor_cons_testsInc, missingFor_append_sleep]
  refine ⟨?_, ?_, ?_⟩
  · intro habs
    apply missingFor_missingInEtcdLoop_of_unmatched F direct ix.list huc c hc
    cases hf : foundInDirect c.Namespace c.Name direct with
    | false => rfl
    | true => exact absurd ((foundInDirect_iff _ _ _).mp hf) habs
  · intro hex
    exact missingFor_missingInEtcdLoop_of_matched F direct c.Namespace c.Name ix.list
      ((foundInDirect_iff _ _ _).mpr hex)
  · have := disparityTotal_missingInEtcdLoop F direct ix.list
    simp only [disparityTotal] at this ⊢
    simp [List.countP_cons, List.countP_append, this]

/-- C3, on scenario C: only `ns1/a` listed, `ns1/a` and `ns1/b` cached. -/
theorem missing_in_authority_check_witness :
    missingFor "ns1" "b" (tick exampleFormatters (.ok [epA]) (storeOf [epA, epB]))
        = [.missingAdd ⟨"ns1", "b", "10.0.0.2:80"⟩] ∧
      missingFor "ns1" "a" (tick exampleFormatters (.ok [epA]) (storeOf [epA, epB])) = [] ∧
      disparityTotal (tick exampleFormatters (.ok [epA]) (storeOf [epA, epB])) = 0 :=
  ⟨(missing_in_authority_check exampleFormatters [epA] (storeOf [epA, epB]) (by decide)
      (by decide) (by decide) epB (by decide)).1 (by decide),
    by decide, by decide⟩

/-- C4 (skipped iteration): when the listing call fails, or the direct
snapshot is empty, or the cached snapshot is empty, the iteration increments
neither the disparity counter nor the missing counter, for any label set and
whatever the other snapshot holds. -/
theorem skipped_tick_emits_no_discrepancy (F : Formatters)
    (listing : Except String (List Endpoints)) (ix : Indexer)
    (h : (∃ e, listing = .error e) ∨ listing = .ok [] ∨ ix.list = []) (l : Labels) :
    Effect.disparityAdd l ∉ tick F listing ix ∧
      Effect.missingAdd l ∉ tick F listing ix := by
  have ht : tick F listing ix = [.testsInc, .sleep SLEEP_TIME] := by
    rcases h with ⟨e, rfl⟩ | rfl | h
    · rfl
    · exact tick_empty F [] ix (Or.inl rfl)
    · cases listing with
      | error e => rfl
      | ok direct => exact tick_empty F direct ix (Or.inr h)
  rw [ht]
  simp

/-- C4, on an empty cache facing a listing of two records. -/
theorem skipped_tick_emits_no_discrepancy_witness :
    Effect.disparityAdd ⟨"ns1", "a", "10.0.0.1:80"⟩
        ∉ tick exampleFormatters (.ok [epA, epB]) (storeOf []) ∧
      Effect.missingAdd ⟨"ns1", "a", "10.0.0.1:80"⟩
        ∉ tick exampleFormatters (.ok [epA, epB]) (storeOf []) :=
  skipped_tick_emits_no_discrepancy exampleFormatters (.ok [epA, epB]) (storeOf [])
    (Or.inr (Or.inr rfl)) ⟨"ns1", "a", "10.0.0.1:80"⟩

/-- C5 (liveness counter): every iteration increments
`watchcache_endpoint_tests_total` exactly once, whether the listing fails, a
snapshot is empty, or one of the three classification branches runs. -/
theorem tests_counter_once_per_tick (F : Formatters)
    (listing : Except String (List Endpoints)) (ix : Indexer) :
    testsTotal (tick F listing ix) = 1 := by
  cases listing with
  | error e => rfl
  | ok direct =>
    by_cases hd : direct = []
    · rw [tick_empty F direct ix (Or.inl hd)]; rfl
    by_cases hc : ix.list = []
    · rw [tick_empty F direct ix (Or.inr hc)]; rfl
    rcases Nat.lt_trichotomy direct.length ix.list.length with hlt | heq | hgt
    · rw [tick_less F direct ix hd hlt]
      have := testsTotal_missingInEtcdLoop F direct ix.list
      simp only [testsTotal] at this ⊢
      simp [List.countP_cons, List.countP_append, this]
    · rw [tick_equal F direct ix hd heq]
      have := testsTotal_disparityLoop F ix direct
      simp only [testsTotal] at this ⊢
      simp [List.countP_cons, List.countP_append, this]
    · rw [tick_more F direct ix hc hgt]
      have := testsTotal_missingInCacheLoop F ix direct
      simp only [testsTotal] at this ⊢
      simp [List.countP_cons, List.countP_append, this]

/-- C6 (blind spot of the equal-count branch): in an iteration whose two
snapshots have the same number of records the missing counter is never
incremented, and a direct record whose lookup yields no record (the key is
absent from the cache, or the lookup fails) gets no disparity increment
either. -/
theorem equal_count_blind_spot (F : Formatters) (direct : List Endpoints)
    (ix : Indexer) (hlen : direct.length = ix.list.length) :
    missingTotal (tick F (.ok direct) ix) = 0 ∧
      ∀ d ∈ direct, (∀ c, ix.getByKey (cacheKey d.Namespace d.Name) ≠ .found c) →
        disparityFor d.Namespace d.Name (tick F (.ok direct) ix) = [] := by
  by_cases hd : direct = []
  · rw [tick_empty F direct ix (Or.inl hd)]
    exact ⟨rfl, fun _ _ _ => rfl⟩
  rw [tick_equal F direct ix hd hlen]
  constructor
  · have := missingTotal_disparityLoop F ix direct
    simp only [missingTotal] at this ⊢
    simp [List.countP_cons, List.countP_append, this]
  · intro d _ hnot
    rw [disparityFor_cons_testsInc, disparityFor_append_sleep]
    exact disparityFor_disparityLoop_of_not_found F ix d.Namespace d.Name direct hnot

/-- C6, on a listing that gained `ns1/c` while the cache lost it and still
holds `ns2/x`: two records on each side, nothing reported for `ns1/c`. -/
theorem equal_count_blind_spot_witness :
    missingTotal (tick exampleFormatters (.ok [epA, epC]) (storeOf [epA, epX])) = 0 ∧
      disparityFor "ns1" "c"
        (tick exampleFormatters (.ok [epA, epC]) (storeOf [epA, epX])) = [] :=
  have h := equal_count_blind_spot exampleFormatters [epA, epC] (storeOf [epA, epX])
    (by decide)
  ⟨h.1, h.2 epC (by decide) (by
    intro c
    have hk : (storeOf [epA, epX]).getByKey (cacheKey epC.Namespace epC.Name) = .absent := by
      decide
    rw [hk]
    exact fun hh => Lookup.noConfusion hh)⟩

/-- C7 (one sleep per iteration), evaluated where it fails: with `ns1/a`
listed and only `ns1/b` cached the counts are equal, the lookup of `ns1/a`
finds nothing, and the iteration sleeps `SLEEP_TIME` inside the Disparity
Check and again at its end: twice, not once. -/
theorem disparity_skip_sleeps_twice :
    tick exampleFormatters (.ok [epA]) (storeOf [epB])
        = [.testsInc, .sleep SLEEP_TIME, .sleep SLEEP_TIME] ∧
      sleepTotal (tick exampleFormatters (.ok [epA]) (storeOf [epB])) = 2 := by
  decide

/-- C8 (the Disparity Check is one-directional): two caches of the size of
the direct snapshot that hold the same record, or none, under the key of
every direct record make the iteration perform exactly the same effects,
however they differ on records whose keys do not occur in the direct
snapshot. -/
theorem disparity_check_one_directional (F : Formatters) (direct : List Endpoints)
    (ix₁ ix₂ : Indexer) (h₁ : ix₁.list.length = direct.length)
    (h₂ : ix₂.list.length = direct.length)
    (hagree : ∀ d ∈ direct, ∀ c,
      ix₁.getByKey (cacheKey d.Namespace d.Name) = .found c ↔
        ix₂.getByKey (cacheKey d.Namespace d.Name) = .found c) :
    tick F (.ok direct) ix₁ = tick F (.ok direct) ix₂ := by
  by_cases hd : direct = []
  · rw [tick_empty F direct ix₁ (Or.inl hd), tick_empty F direct ix₂ (Or.inl hd)]
  rw [tick_equal F direct ix₁ hd h₁.symm, tick_equal F direct ix₂ hd h₂.symm,
    disparityLoop_congr F ix₁ ix₂ direct hagree]

/-- C8, on two caches that both hold `ns1/b` at version `v2` and not
`ns1/a`, and differ in their second record. -/
theorem disparity_check_one_directional_witness :
    tick exampleFormatters (.ok [epA, epB]) (storeOf [epB2, epC])
      = tick exampleFormatters (.ok [epA, epB]) (storeOf [epB2, epX]) :=
  disparity_check_one_directional exampleFormatters [epA, epB] (storeOf [epB2, epC])
    (storeOf [epB2, epX]) (by decide) (by decide) (by
      have hk : ∀ d ∈ [epA, epB],
          (storeOf [epB2, epC]).getByKey (cacheKey d.Namespace d.Name)
            = (storeOf [epB2, epX]).getByKey (cacheKey d.Namespace d.Name) := by
        decide
      intro d hd c
      rw [hk d hd])

/-- C9 (a count difference is reported): for non-empty snapshots with unique
keys in each and a cache whose lookup agrees with its enumeration, an
iteration whose two counts differ increments the missing counter at least as
many times as the counts differ, hence at least once. -/
theorem count_difference_reported (F : Formatters) (direct : List Endpoints)
    (ix : Indexer) (hd : direct ≠ []) (hc : ix.list ≠ [])
    (hud : UniqueKeys direct) (huc : UniqueKeys ix.list) (hcons : ix.Consistent)
    (hne : direct.length ≠ ix.list.length) :
    Int.natAbs ((direct.length : Int) - (ix.list.length : Int))
        ≤ missingTotal (tick F (.ok direct) ix) ∧
      1 ≤ missingTotal (tick F (.ok direct) ix) := by
  have key : Int.natAbs ((direct.length : Int) - (ix.list.length : Int))
      ≤ missingTotal (tick F (.ok direct) ix) := by
    rcases Nat.lt_or_gt_of_ne hne with hlt | hgt
    · rw [tick_less F direct ix hd hlt]
      have hloop := missingTotal_missingInEtcdLoop F direct ix.list
      have hsplit := List.length_eq_countP_add_countP
        (fun c => foundInDirect c.Namespace c.Name direct) ix.list
      have hfound : ix.list.countP (fun c => foundInDirect c.Namespace c.Name direct)
          ≤ direct.length := by
        apply countP_le_length_of_keys ix.list direct _ huc
        intro x _ hx
        obtain ⟨d, hdm, h₁, h₂⟩ := (foundInDirect_iff _ _ _).mp hx
        exact List.mem_map.mpr ⟨d, hdm, by simp [identityKey, h₁, h₂]⟩
      have htot : missingTotal
          (Effect.testsInc :: (missingInEtcdLoop F direct ix.list ++ [Effect.sleep SLEEP_TIME]))
          = missingTotal (missingInEtcdLoop F direct ix.list) := by
        simp [missingTotal, List.countP_cons, List.countP_append]
      rw [htot, hloop]
      have hnot : (ix.list.countP fun c => !foundInDirect c.Namespace c.Name direct)
          = ix.list.countP fun c => ¬ (foundInDirect c.Namespace c.Name direct) = true := by
        congr 1; funext c; simp
      omega
    · rw [tick_more F direct ix hc hgt]
      have hloop := missingTotal_missingInCacheLoop F ix direct
      have hsplit := List.length_eq_countP_add_countP
        (fun d => (ix.getByKey (cacheKey d.Namespace d.Name)).isFound) direct
      have hfound : direct.countP
          (fun d => (ix.getByKey (cacheKey d.Namespace d.Name)).isFound)
          ≤ ix.list.length := by
        apply countP_le_length_of_keys direct ix.list _ hud
        intro x _ hx
        obtain ⟨c, hf⟩ := (isFound_iff _).mp hx
        have := (hcons x.Namespace x.Name c).mp hf
        exact List.mem_map.mpr ⟨c, this.1, by simp [identityKey, this.2.1, this.2.2]⟩
      have htot : missingTotal
          (Effect.testsInc :: (missingInCacheLoop F ix direct ++ [Effect.sleep SLEEP_TIME]))
          = missingTotal (missingInCacheLoop F ix direct) := by
        simp [missingTotal, List.countP_cons, List.countP_append]
      rw [htot, hloop]
      have hnot : (direct.countP
            fun d => !(ix.getByKey (cacheKey d.Namespace d.Name)).isFound)
          = direct.countP
            fun d => ¬ ((ix.getByKey (cacheKey d.Namespace d.Name)).isFound) = true := by
        congr 1; funext c; simp
      omega
  refine ⟨key, le_trans ?_ key⟩
  omega

/-- C9, on three listed records of which one is cached: the counts differ by
two and the missing counter is incremented twice. -/
theorem count_difference_reported_witness :
    Int.natAbs (([epA, epB, epC].length : Int) - ((storeOf [epA]).list.length : Int))
        ≤ missingTotal (tick exampleFormatters (.ok [epA, epB, epC]) (storeOf [epA])) ∧
      1 ≤ missingTotal (tick exampleFormatters (.ok [epA, epB, epC]) (storeOf [epA])) :=
  count_difference_reported exampleFormatters [epA, epB, epC] (storeOf [epA]) (by decide)
    (by decide) (by decide) (by decide) (storeOf_consistent _ (by decide) (by decide))
    (by decide)

/-- C10 (the lookup key identifies the identity key): for namespaces without
a slash, the keys `ns + "/" + name` of two records are equal exactly when
the namespaces are equal and the names are equal, which is the comparison of
the Missing-in-Authority scan. -/
theorem cacheKey_identifies_identity (ns₁ name₁ ns₂ name₂ : String)
    (h₁ : '/' ∉ ns₁.toList) (h₂ : '/' ∉ ns₂.toList) :
    cacheKey ns₁ name₁ = cacheKey ns₂ name₂ ↔ (ns₁ = ns₂ ∧ name₁ = name₂) := by
  constructor
  · exact cacheKey_inj_of_namespaces ns₁ name₁ ns₂ name₂ h₁ h₂
  · rintro ⟨rfl, rfl⟩; rfl

/-- C10, on the keys of `ns1/a` and `ns1/b`, which differ. -/
theorem cacheKey_identifies_identity_witness :
    cacheKey "ns1" "a" = cacheKey "ns1" "b" ↔ ("ns1" = "ns1" ∧ "a" = "b") :=
  cacheKey_identifies_identity "ns1" "a" "ns1" "b" (by decide) (by decide)

end WatchcacheExporter
